import Mathlib

/-!
Shallow embedding of the line-colorization core of `nscwrs` (src/main.rs):
the configuration parser `load_color_rules` / `parse_colors` / `parse_color`
and the colorizer `apply_color_rules`.  Text is modelled as `List Char`
(Rust `&str` operations become structural list functions).  Regex
compilation and matching are performed by the external `regex` crate, so
they are abstracted: a compiled regex is any value of a type parameter `R`
for the loader, and for the colorizer it is its observable behaviour, the
list of whole-match spans it reports on a given line.
-/

namespace Nscwrs

/-- A piece of text, as the sequence of its characters. -/
abbrev Str := List Char

/-- Models Rust `str::trim` (src/main.rs:76): whitespace stripped from both
ends. -/
def trimChars (l : Str) : Str :=
  ((l.dropWhile Char.isWhitespace).reverse.dropWhile Char.isWhitespace).reverse

/-- Models Rust `str::split` on a single separator character
(src/main.rs:123): `""` splits to `[""]`, separators delimit possibly empty
pieces. -/
def splitOnChar (sep : Char) : Str → List Str
  | [] => [[]]
  | a :: as =>
    match splitOnChar sep as with
    | [] => [[]]
    | g :: gs => if a = sep then [] :: g :: gs else (a :: g) :: gs

/-- Terminal colors recognized by `parse_color` (src/main.rs:49-68). -/
inductive Color where
  | red | blue | green | yellow | magenta | cyan | white | black
  | brightRed | brightBlue | brightGreen | brightYellow
  | brightMagenta | brightCyan | brightWhite
deriving DecidableEq, Repr

/-- Mirrors `parse_color` (src/main.rs:49-68): case-insensitive name lookup;
any unrecognized value falls back to white.  Rust `str::to_lowercase` is
modelled by ASCII `Char.toLower`, with which it agrees on ASCII values;
exotic Unicode lowercasings (such as U+212A KELVIN SIGN to `k`) are not
modelled, so statements about the fallback are made for ASCII values. -/
def parse_color (color : Str) : Color :=
  let c := color.map Char.toLower
  if c = "red".toList then .red
  else if c = "blue".toList then .blue
  else if c = "green".toList then .green
  else if c = "yellow".toList then .yellow
  else if c = "magenta".toList then .magenta
  else if c = "cyan".toList then .cyan
  else if c = "white".toList then .white
  else if c = "black".toList then .black
  else if c = "brightred".toList then .brightRed
  else if c = "brightblue".toList then .brightBlue
  else if c = "brightgreen".toList then .brightGreen
  else if c = "brightyellow".toList then .brightYellow
  else if c = "brightmagenta".toList then .brightMagenta
  else if c = "brightcyan".toList then .brightCyan
  else if c = "brightwhite".toList then .brightWhite
  else .white

/-- The color names `parse_color` recognizes, lower case. -/
def validColorNames : List Str :=
  ["red".toList, "blue".toList, "green".toList, "yellow".toList,
   "magenta".toList, "cyan".toList, "white".toList, "black".toList,
   "brightred".toList, "brightblue".toList, "brightgreen".toList,
   "brightyellow".toList, "brightmagenta".toList, "brightcyan".toList,
   "brightwhite".toList]

/-- Loop body of `parse_colors` (src/main.rs:119-132): the comma-split
tokens are processed in order, each token is trimmed, a `fg:` token
overwrites the foreground, a `bg:` token the background, anything else is
skipped. -/
def parseColorsAux : List Str → Option Color × Option Color → Option Color × Option Color
  | [], acc => acc
  | part :: parts, (fg, bg) =>
    let t := trimChars part
    if List.isPrefixOf "fg:".toList t then
      parseColorsAux parts (some (parse_color (t.drop 3)), bg)
    else if List.isPrefixOf "bg:".toList t then
      parseColorsAux parts (fg, some (parse_color (t.drop 3)))
    else parseColorsAux parts (fg, bg)

/-- Mirrors `parse_colors` (src/main.rs:119-132). -/
def parse_colors (color_def : Str) : Option Color × Option Color :=
  parseColorsAux (splitOnChar ',' color_def) (none, none)

/-- One rule: a compiled pattern (abstracted as the type parameter `R`),
a mandatory foreground color and an optional background (src/main.rs:13-17). -/
structure Rule (R : Type) where
  regex : R
  fg_color : Color
  bg_color : Option Color
deriving DecidableEq

/-- One diagnostic printed to stderr by `load_color_rules`
(src/main.rs:89-97 and 107-111), with its 1-based line number and the
trimmed offending line. -/
inductive Diag where
  | invalidRegex (lineNum : Nat) (line : Str)
  | regexWithoutColor (lineNum : Nat) (line : Str)
  | missingFg (lineNum : Nat) (line : Str)
deriving DecidableEq, Repr

/-- The mutable state of the `load_color_rules` loop (src/main.rs:71-74),
together with the rules built and the diagnostics emitted so far. -/
structure LoadState (R : Type) where
  last_fg : Option Color
  last_bg : Option Color
  awaiting_regex : Bool
  rules : List (Rule R)
  diags : List Diag
deriving DecidableEq

/-- Initial loop state (src/main.rs:71-74). -/
def initState {R : Type} : LoadState R := ⟨none, none, false, [], []⟩

/-- Models `line.strip_prefix('[').and_then(|s| s.strip_suffix(']'))`
(src/main.rs:100). -/
def stripBrackets (t : Str) : Option Str :=
  match t with
  | '[' :: rest => if rest.getLast? = some ']' then some rest.dropLast else none
  | _ => none

/-- Whether the trimmed line is skipped by the loop (src/main.rs:77-79):
empty, or its first character is `#`. -/
def isSkipped (line : Str) : Bool :=
  line.isEmpty || List.isPrefixOf "#".toList line

/-- One iteration of the `load_color_rules` loop (src/main.rs:76-114) on the
line with 0-based index `lineNum`.  `Regex::new` is abstracted by `compile`:
`some` is `Ok`, `none` is `Err`. -/
def loadStep {R : Type} (compile : Str → Option R) (st : LoadState R)
    (lineNum : Nat) (rawLine : Str) : LoadState R :=
  let line := trimChars rawLine
  if isSkipped line then st
  else if st.awaiting_regex then
    let st' : LoadState R :=
      match st.last_fg with
      | some fg =>
        match compile line with
        | some re => { st with rules := st.rules ++ [⟨re, fg, st.last_bg⟩] }
        | none => { st with diags := st.diags ++ [.invalidRegex (lineNum + 1) line] }
      | none => { st with diags := st.diags ++ [.regexWithoutColor (lineNum + 1) line] }
    { st' with awaiting_regex := false }
  else
    match stripBrackets line with
    | some color_def =>
      match parse_colors color_def with
      | (some fg, bg) => { st with last_fg := some fg, last_bg := bg, awaiting_regex := true }
      | (none, _) => { st with diags := st.diags ++ [.missingFg (lineNum + 1) line] }
    | none => st

/-- The `load_color_rules` loop over the enumerated lines (src/main.rs:76-114). -/
def runLoad {R : Type} (compile : Str → Option R) :
    LoadState R → Nat → List Str → LoadState R
  | st, _, [] => st
  | st, n, l :: ls => runLoad compile (loadStep compile st n l) (n + 1) ls

/-- `load_color_rules` applied to an already-split list of raw lines. -/
def loadLines {R : Type} (compile : Str → Option R) (lines : List Str) : LoadState R :=
  runLoad compile initState 0 lines

/-- Models Rust `str::lines` (used at src/main.rs:76): lines end at `'\n'`,
a carriage return immediately before a `'\n'` is stripped, and a final
segment without a terminator is kept as is, its trailing `'\r'` included. -/
def rustLines (s : Str) : List Str :=
  if s = [] then []
  else
    let parts := splitOnChar '\n' s
    let init := parts.dropLast.map (fun l => if l.getLast? = some '\r' then l.dropLast else l)
    match parts.getLast? with
    | some [] => init
    | some lst => init ++ [lst]
    | none => []

/-- Mirrors `load_color_rules` (src/main.rs:69-117).  `content = none`
models an unreadable configuration source, which `unwrap_or_default`
(src/main.rs:70) turns into the empty string. -/
def load_color_rules {R : Type} (compile : Str → Option R) (content : Option Str) :
    List (Rule R) × List Diag :=
  let st := loadLines compile (rustLines (content.getD []))
  (st.rules, st.diags)

/-- A line of text to colorize; match offsets index into this sequence. -/
abbrev Line := Str

/-- The observable behaviour of a compiled regex on a given line: the
half-open whole-match spans that `Regex::captures_iter(line)` reports
(src/main.rs:142-144), in report order. -/
abbrev Matcher := Line → List (Nat × Nat)

/-- A collected match: start offset, end offset, index of the originating
rule (src/main.rs:139 and 144). -/
abbrev RMatch := Nat × Nat × Nat

/-- The match-collection loop (src/main.rs:141-147): rules are scanned in
declaration order, and every span a rule reports is tagged with that rule's
index.  `k` is the index of the first rule of the remaining list. -/
def collectAux (line : Line) : List (Rule Matcher) → Nat → List RMatch
  | [], _ => []
  | r :: rs, k => (r.regex line).map (fun p => (p.1, p.2, k)) ++ collectAux line rs (k + 1)

/-- All matches of all rules on `line`, in collection order (src/main.rs:141-147). -/
def collectMatches (line : Line) (rules : List (Rule Matcher)) : List RMatch :=
  collectAux line rules 0

/-- The sort comparator of src/main.rs:153 as a boolean `≤`-test:
ascending start, ties broken by descending length.  Rust `sort_by` is a
stable sort, modelled by `List.mergeSort` with this test. -/
def matchLE (a b : RMatch) : Bool :=
  decide (a.1 < b.1) || (decide (a.1 = b.1) && decide (b.2.1 - b.1 ≤ a.2.1 - a.1))

/-- The stable sort of src/main.rs:153. -/
def sortMatches (l : List RMatch) : List RMatch := l.mergeSort matchLE

/-- The overlap-resolution scan (src/main.rs:155-163): accept a match iff
its start is at or after the end of the last accepted match. -/
def greedy : List RMatch → Nat → List RMatch
  | [], _ => []
  | m :: ms, lastEnd => if lastEnd ≤ m.1 then m :: greedy ms m.2.1 else greedy ms lastEnd

/-- The accepted matches of one rendering: collect, stable-sort, scan
(src/main.rs:139-163). -/
def filteredMatches (line : Line) (rules : List (Rule Matcher)) : List RMatch :=
  greedy (sortMatches (collectMatches line rules)) 0

/-- Rust slice `&line[a..b]`. -/
def sliceL (line : Line) (a b : Nat) : Line := (line.drop a).take (b - a)

/-- One output fragment: bytes copied verbatim, or a matched segment wrapped
in exactly one style (src/main.rs:165-188). -/
inductive Chunk where
  | plain (s : Line)
  | styled (s : Line) (fg : Color) (bg : Option Color)
deriving DecidableEq

/-- Rust `&rules[rule_idx]` (src/main.rs:173); every index reachable from
`collectMatches` is in range, so the default is never used there. -/
def getRule (rules : List (Rule Matcher)) (i : Nat) : Rule Matcher :=
  rules.getD i ⟨fun _ => [], .white, none⟩

/-- The rendering loop (src/main.rs:165-188), producing the output at
fragment granularity. -/
def renderChunks (line : Line) (rules : List (Rule Matcher)) :
    List RMatch → Nat → List Chunk
  | [], lastPos =>
    if lastPos < line.length then [.plain (sliceL line lastPos line.length)] else []
  | (s, e, idx) :: ms, lastPos =>
    (if lastPos < s then [Chunk.plain (sliceL line lastPos s)] else []) ++
      Chunk.styled (sliceL line s e) (getRule rules idx).fg_color (getRule rules idx).bg_color ::
        renderChunks line rules ms e

/-- Mirrors `apply_color_rules` (src/main.rs:134-190) at fragment
granularity. -/
def applyChunks (line : Line) (rules : List (Rule Matcher)) (use_color : Bool) : List Chunk :=
  if !use_color || rules.isEmpty then [.plain line]
  else
    let ms := collectMatches line rules
    if ms.isEmpty then [.plain line]
    else renderChunks line rules (greedy (sortMatches ms) 0) 0

/-- ANSI foreground code of each color, as emitted by the `colored` crate. -/
def fgCode : Color → Str
  | .red => ['3', '1']
  | .blue => ['3', '4']
  | .green => ['3', '2']
  | .yellow => ['3', '3']
  | .magenta => ['3', '5']
  | .cyan => ['3', '6']
  | .white => ['3', '7']
  | .black => ['3', '0']
  | .brightRed => ['9', '1']
  | .brightBlue => ['9', '4']
  | .brightGreen => ['9', '2']
  | .brightYellow => ['9', '3']
  | .brightMagenta => ['9', '5']
  | .brightCyan => ['9', '6']
  | .brightWhite => ['9', '7']

/-- ANSI background code of each color, as emitted by the `colored` crate. -/
def bgCode : Color → Str
  | .red => ['4', '1']
  | .blue => ['4', '4']
  | .green => ['4', '2']
  | .yellow => ['4', '3']
  | .magenta => ['4', '5']
  | .cyan => ['4', '6']
  | .white => ['4', '7']
  | .black => ['4', '0']
  | .brightRed => ['1', '0', '1']
  | .brightBlue => ['1', '0', '4']
  | .brightGreen => ['1', '0', '2']
  | .brightYellow => ['1', '0', '3']
  | .brightMagenta => ['1', '0', '5']
  | .brightCyan => ['1', '0', '6']
  | .brightWhite => ['1', '0', '7']

/-- Modelled from the spec: the style-wrapping interface `style(text, fg, bg)`
of spec sections 4.2 and 9.  The concrete escape sequences are those of the
external `colored` crate (src/main.rs:175-181), which brackets the segment
with an ANSI start sequence (background code first, then foreground) and
the reset sequence. -/
def renderChunk : Chunk → Line
  | .plain s => s
  | .styled s fg none =>
    '\x1b' :: '[' :: fgCode fg ++ 'm' :: s ++ ['\x1b', '[', '0', 'm']
  | .styled s fg (some bg) =>
    '\x1b' :: '[' :: bgCode bg ++ ';' :: fgCode fg ++ 'm' :: s ++ ['\x1b', '[', '0', 'm']

/-- Concatenation of the rendered fragments: the string
`apply_color_rules` returns. -/
def render : List Chunk → Line
  | [] => []
  | c :: cs => renderChunk c ++ render cs

/-- The text content carried by a fragment, style stripped. -/
def chunkText : Chunk → Line
  | .plain s => s
  | .styled s _ _ => s

/-- De-styled concatenation of the fragments. -/
def destyle : List Chunk → Line
  | [] => []
  | c :: cs => chunkText c ++ destyle cs

/-- Mirrors `apply_color_rules` (src/main.rs:134-190): the final output
string. -/
def apply_color_rules (line : Line) (rules : List (Rule Matcher)) (use_color : Bool) : Line :=
  render (applyChunks line rules use_color)

/-- Engine contract of the `regex` crate: every span `captures_iter`
reports is well formed, `start ≤ end`. -/
abbrev wfMatches (line : Line) (rules : List (Rule Matcher)) : Prop :=
  ∀ m ∈ collectMatches line rules, m.1 ≤ m.2.1

/-! ### Helper lemmas about the overlap-resolution scan -/

/-- The scan returns a subsequence of its input. -/
theorem greedy_sublist (l : List RMatch) (le : Nat) : List.Sublist (greedy l le) l := by
  induction l generalizing le with
  | nil => simp [greedy]
  | cons m ms ih =>
    rw [greedy]
    split
    · exact (ih _).cons₂ m
    · exact (ih _).cons m

/-- Every accepted match starts at or after the initial cursor, provided
spans are well formed. -/
theorem mem_greedy_le {l : List RMatch} {le : Nat} {m : RMatch}
    (wf : ∀ x ∈ l, x.1 ≤ x.2.1) (h : m ∈ greedy l le) : le ≤ m.1 := by
  induction l generalizing le with
  | nil => simp [greedy] at h
  | cons a as ih =>
    rw [greedy] at h
    split at h
    · rename_i hle
      rcases List.mem_cons.mp h with rfl | h'
      · exact hle
      · have h2 := ih (fun x hx => wf x (List.mem_cons_of_mem a hx)) h'
        have h3 := wf a (List.mem_cons_self a as)
        omega
    · exact ih (fun x hx => wf x (List.mem_cons_of_mem a hx)) h

/-- The chain invariant of the accepted list: each match starts at or after
the cursor, and the cursor then advances to its end. -/
def chainFrom : Nat → List RMatch → Prop
  | _, [] => True
  | le, m :: ms => le ≤ m.1 ∧ chainFrom m.2.1 ms

/-- The scan's output satisfies the chain invariant. -/
theorem greedy_chainFrom (l : List RMatch) (le : Nat) : chainFrom le (greedy l le) := by
  induction l generalizing le with
  | nil => simp [greedy, chainFrom]
  | cons a as ih =>
    rw [greedy]
    split
    · exact ⟨‹_›, ih _⟩
    · exact ih _

/-- Every member of a chain starts at or after the initial cursor. -/
theorem chainFrom_le_mem : ∀ {l : List RMatch} {le : Nat} {m : RMatch},
    chainFrom le l → (∀ x ∈ l, x.1 ≤ x.2.1) → m ∈ l → le ≤ m.1 := by
  intro l
  induction l with
  | nil => intro le m _ _ h; simp at h
  | cons a as ih =>
    intro le m hc wf hm
    rcases List.mem_cons.mp hm with rfl | h'
    · exact hc.1
    · have h2 := ih hc.2 (fun x hx => wf x (List.mem_cons_of_mem a hx)) h'
      have h3 := wf a (List.mem_cons_self a as)
      have h4 := hc.1
      omega

/-- A well-formed chain is pairwise ordered: each match ends at or before
the next begins. -/
theorem chainFrom_pairwise : ∀ {l : List RMatch} {le : Nat},
    chainFrom le l → (∀ x ∈ l, x.1 ≤ x.2.1) →
    l.Pairwise (fun a b => a.2.1 ≤ b.1) := by
  intro l
  induction l with
  | nil => intro le _ _; simp
  | cons a as ih =>
    intro le hc wf
    refine List.Pairwise.cons ?_ (ih hc.2 (fun x hx => wf x (List.mem_cons_of_mem a hx)))
    intro b hb
    exact chainFrom_le_mem hc.2 (fun x hx => wf x (List.mem_cons_of_mem a hx)) hb

/-- If, wherever `y` stands in the list, some earlier element has a
non-empty span starting at or after `y`'s start, then the scan rejects `y`:
that earlier element forces the cursor strictly past `y`'s start. -/
theorem greedy_blocked {y : RMatch} :
    ∀ (l : List RMatch), (∀ x ∈ l, x.1 ≤ x.2.1) →
    (∀ l1 l2, l = l1 ++ y :: l2 → ∃ x ∈ l1, x.1 < x.2.1 ∧ y.1 ≤ x.1) →
    ∀ le, y ∉ greedy l le := by
  intro l
  induction l with
  | nil => intro _ _ le h; simp [greedy] at h
  | cons m ms ih =>
    intro wf hblock le hmem
    have hmy : m ≠ y := by
      intro h
      subst h
      obtain ⟨x, hx, -⟩ := hblock [] ms rfl
      exact absurd hx (List.not_mem_nil x)
    have wf' : ∀ x ∈ ms, x.1 ≤ x.2.1 := fun x hx => wf x (List.mem_cons_of_mem m hx)
    by_cases hb : m.1 < m.2.1 ∧ y.1 ≤ m.1
    · obtain ⟨hb1, hb2⟩ := hb
      rw [greedy] at hmem
      split at hmem
      · rename_i hle
        rcases List.mem_cons.mp hmem with h | h
        · exact hmy h.symm
        · have h2 := mem_greedy_le wf' h
          omega
      · rename_i hle
        have h2 := mem_greedy_le wf' hmem
        omega
    · have hblock' : ∀ l1 l2, ms = l1 ++ y :: l2 → ∃ x ∈ l1, x.1 < x.2.1 ∧ y.1 ≤ x.1 := by
        intro l1 l2 h
        obtain ⟨x, hx, hx1, hx2⟩ := hblock (m :: l1) l2 (by rw [h]; rfl)
        rcases List.mem_cons.mp hx with rfl | hx'
        · exact absurd ⟨hx1, hx2⟩ hb
        · exact ⟨x, hx', hx1, hx2⟩
      rw [greedy] at hmem
      split at hmem
      · rcases List.mem_cons.mp hmem with h | h
        · exact hmy h.symm
        · exact ih wf' hblock' _ h
      · exact ih wf' hblock' _ hmem

/-- If every element before `x` ends at or before `x`'s start, the scan
accepts `x`. -/
theorem greedy_accept : ∀ (l1 : List RMatch) (x : RMatch) (l2 : List RMatch) (le : Nat),
    (∀ z ∈ l1, z.2.1 ≤ x.1) → le ≤ x.1 → x ∈ greedy (l1 ++ x :: l2) le := by
  intro l1
  induction l1 with
  | nil =>
    intro x l2 le _ hle
    rw [List.nil_append, greedy, if_pos hle]
    exact List.mem_cons_self x _
  | cons z l1 ih =>
    intro x l2 le hz hle
    rw [List.cons_append, greedy]
    have hz' : ∀ w ∈ l1, w.2.1 ≤ x.1 := fun w hw => hz w (List.mem_cons_of_mem z hw)
    split
    · exact List.mem_cons_of_mem z (ih x l2 z.2.1 hz' (hz z (List.mem_cons_self z l1)))
    · exact ih x l2 le hz' hle

/-! ### Helper lemmas about the stable sort -/

theorem matchLE_trans : ∀ (a b c : RMatch), matchLE a b → matchLE b c → matchLE a c := by
  intro a b c h1 h2
  simp only [matchLE, Bool.or_eq_true, Bool.and_eq_true, decide_eq_true_eq] at h1 h2 ⊢
  omega

theorem matchLE_total : ∀ (a b : RMatch), matchLE a b || matchLE b a := by
  intro a b
  simp only [matchLE, Bool.or_eq_true, Bool.and_eq_true, decide_eq_true_eq]
  omega

theorem sortMatches_perm (l : List RMatch) : List.Perm (sortMatches l) l :=
  List.mergeSort_perm l matchLE

theorem sortMatches_sorted (l : List RMatch) :
    (sortMatches l).Pairwise (fun a b => matchLE a b = true) :=
  List.sorted_mergeSort matchLE_trans matchLE_total l

/-- Stability of the sort: an ordered pair of the input stays ordered. -/
theorem sortMatches_pair {x y : RMatch} {l : List RMatch}
    (hxy : matchLE x y = true) (h : List.Sublist [x, y] l) : List.Sublist [x, y] (sortMatches l) :=
  List.pair_sublist_mergeSort matchLE_trans matchLE_total hxy h

/-- If `[x, y]` is a subsequence of a list in which `y` occurs only at the
shown position, `x` stands strictly before that position. -/
theorem mem_left_of_pair_sublist {α : Type} {x y : α} :
    ∀ {l1 l2 : List α}, List.Sublist [x, y] (l1 ++ y :: l2) → x ≠ y → y ∉ l2 → x ∈ l1 := by
  intro l1
  induction l1 with
  | nil =>
    intro l2 h hxy hy
    rw [List.nil_append] at h
    cases h with
    | cons _ h' =>
      exact absurd (h'.subset (List.mem_cons_of_mem x (List.mem_cons_self y []))) hy
    | cons₂ _ h' => exact absurd rfl hxy
  | cons a l1 ih =>
    intro l2 h hxy hy
    rw [List.cons_append] at h
    cases h with
    | cons _ h' => exact List.mem_cons_of_mem a (ih h' hxy hy)
    | cons₂ _ h' => exact List.mem_cons_self x l1

/-! ### Helper lemmas about match collection -/

/-- Every collected match is tagged with an index at or past the running
index. -/
theorem mem_collectAux_tag {line : Line} :
    ∀ {rs : List (Rule Matcher)} {k : Nat} {m : RMatch},
      m ∈ collectAux line rs k → k ≤ m.2.2 := by
  intro rs
  induction rs with
  | nil => intro k m h; simp [collectAux] at h
  | cons r rs ih =>
    intro k m h
    rw [collectAux] at h
    rcases List.mem_append.mp h with h | h
    · obtain ⟨p, -, rfl⟩ := List.mem_map.mp h
      exact Nat.le_refl k
    · have := ih h
      omega

/-- Collection order refines rule order: a match of an earlier rule stands
before a match of a later rule. -/
theorem pair_sublist_collectAux {line : Line} :
    ∀ {rs : List (Rule Matcher)} {k : Nat} {x y : RMatch},
      x ∈ collectAux line rs k → y ∈ collectAux line rs k → x.2.2 < y.2.2 →
      List.Sublist [x, y] (collectAux line rs k) := by
  intro rs
  induction rs with
  | nil => intro k x y hx _ _; simp [collectAux] at hx
  | cons r rs ih =>
    intro k x y hx hy hlt
    rw [collectAux] at hx hy ⊢
    rcases List.mem_append.mp hx with hx' | hx'
    · rcases List.mem_append.mp hy with hy' | hy'
      · have ex : x.2.2 = k := by
          obtain ⟨p, -, rfl⟩ := List.mem_map.mp hx'
          rfl
        have ey : y.2.2 = k := by
          obtain ⟨p, -, rfl⟩ := List.mem_map.mp hy'
          rfl
        omega
      · exact List.Sublist.append (List.singleton_sublist.mpr hx')
          (List.singleton_sublist.mpr hy')
    · have hx2 : k + 1 ≤ x.2.2 := mem_collectAux_tag hx'
      rcases List.mem_append.mp hy with hy' | hy'
      · have ey : y.2.2 = k := by
          obtain ⟨p, -, rfl⟩ := List.mem_map.mp hy'
          rfl
        omega
      · exact (ih hx' hy' hlt).trans (List.sublist_append_right _ _)

/-- Accepted matches are collected matches. -/
theorem mem_filtered_collect {line : Line} {rules : List (Rule Matcher)} {m : RMatch}
    (h : m ∈ filteredMatches line rules) : m ∈ collectMatches line rules :=
  (sortMatches_perm _).mem_iff.mp ((greedy_sublist _ _).subset h)

/-- Well-formedness carries over to the sorted list. -/
theorem wf_sorted {line : Line} {rules : List (Rule Matcher)} (wf : wfMatches line rules) :
    ∀ x ∈ sortMatches (collectMatches line rules), x.1 ≤ x.2.1 :=
  fun x hx => wf x ((sortMatches_perm _).mem_iff.mp hx)

/-- Well-formedness carries over to the accepted list. -/
theorem wf_filtered {line : Line} {rules : List (Rule Matcher)} (wf : wfMatches line rules) :
    ∀ x ∈ filteredMatches line rules, x.1 ≤ x.2.1 :=
  fun x hx => wf x (mem_filtered_collect hx)

/-! ### Helper lemmas about rendering -/

theorem sliceL_append_drop {line : Line} {a b : Nat} (hab : a ≤ b) :
    sliceL line a b ++ line.drop b = line.drop a := by
  unfold sliceL
  have h : line.drop b = (line.drop a).drop (b - a) := by
    rw [List.drop_drop]
    congr 1
    omega
  rw [h, List.take_append_drop]

theorem destyle_append (c1 c2 : List Chunk) :
    destyle (c1 ++ c2) = destyle c1 ++ destyle c2 := by
  induction c1 with
  | nil => simp [destyle]
  | cons c cs ih => simp [destyle, ih]

/-- Coverage of the rendering walk: if the accepted matches form a chain
starting at the cursor and have well-formed spans, the de-styled output is
exactly the rest of the line. -/
theorem destyle_renderChunks {line : Line} {rules : List (Rule Matcher)} :
    ∀ (ms : List RMatch) (lastPos : Nat), chainFrom lastPos ms →
      (∀ x ∈ ms, x.1 ≤ x.2.1) →
      destyle (renderChunks line rules ms lastPos) = line.drop lastPos := by
  intro ms
  induction ms with
  | nil =>
    intro lastPos _ _
    rw [renderChunks]
    split
    · rename_i h
      show destyle [Chunk.plain (sliceL line lastPos line.length)] = line.drop lastPos
      simp only [destyle, chunkText, List.append_nil, sliceL]
      apply List.take_of_length_le
      simp
    · rename_i h
      show destyle [] = line.drop lastPos
      rw [destyle, Eq.comm, List.drop_eq_nil_iff]
      omega
  | cons m ms ih =>
    obtain ⟨s, e, idx⟩ := m
    intro lastPos hc wf
    have h1 : lastPos ≤ s := hc.1
    have h2 : s ≤ e := wf (s, e, idx) (List.mem_cons_self _ _)
    have ihr := ih e hc.2 (fun x hx => wf x (List.mem_cons_of_mem _ hx))
    rw [renderChunks, destyle_append]
    show _ ++ destyle (Chunk.styled _ _ _ :: renderChunks line rules ms e) = _
    rw [destyle, chunkText, ihr]
    by_cases hlt : lastPos < s
    · rw [if_pos hlt]
      show destyle [Chunk.plain (sliceL line lastPos s)] ++ _ = _
      simp only [destyle, chunkText, List.append_nil]
      rw [sliceL_append_drop h2, sliceL_append_drop h1]
    · rw [if_neg hlt]
      have hps : lastPos = s := by omega
      subst hps
      show destyle [] ++ _ = _
      rw [destyle, List.nil_append, sliceL_append_drop h2]

theorem length_chunkText_le (c : Chunk) :
    (chunkText c).length ≤ (renderChunk c).length := by
  cases c with
  | plain s => simp [chunkText, renderChunk]
  | styled s fg bg =>
    cases bg <;> simp [chunkText, renderChunk] <;> omega

theorem length_destyle_le (cs : List Chunk) :
    (destyle cs).length ≤ (render cs).length := by
  induction cs with
  | nil => simp [destyle, render]
  | cons c cs ih =>
    have := length_chunkText_le c
    simp only [destyle, render, List.length_append]
    omega

/-- Every match handed to the rendering walk gets its segment emitted,
wrapped in its own rule's style. -/
theorem styled_mem_renderChunks {line : Line} {rules : List (Rule Matcher)} :
    ∀ {ms : List RMatch} {lastPos : Nat} {m : RMatch}, m ∈ ms →
      Chunk.styled (sliceL line m.1 m.2.1) (getRule rules m.2.2).fg_color
        (getRule rules m.2.2).bg_color ∈ renderChunks line rules ms lastPos := by
  intro ms
  induction ms with
  | nil => intro lastPos m h; simp at h
  | cons a as ih =>
    intro lastPos m h
    obtain ⟨s, e, idx⟩ := a
    rw [renderChunks]
    rcases List.mem_cons.mp h with rfl | h'
    · exact List.mem_append_right _ (List.mem_cons_self _ _)
    · exact List.mem_append_right _ (List.mem_cons_of_mem _ (ih h'))

/-- A rule whose abstracted regex reports the same fixed spans on every
line; used to instantiate theorems on concrete inputs. -/
def wRule (spans : List (Nat × Nat)) (fg : Color) (bg : Option Color) : Rule Matcher :=
  ⟨fun _ => spans, fg, bg⟩

/-! ### Claim C3 -/

/-- C3: for every line `L` and rule set `R` (under the engine contract that
reported spans are well formed), concatenating in order the unstyled
fragments and the de-styled matched fragments of `colorize(L, R, true)`
reproduces `L` exactly — every input byte appears once, in order, bare or
inside exactly one style wrapper — and the output length is at least the
input length. -/
theorem c3_coverage (line : Line) (rules : List (Rule Matcher)) (wf : wfMatches line rules) :
    destyle (applyChunks line rules true) = line ∧
    line.length ≤ (apply_color_rules line rules true).length := by
  have hd : destyle (applyChunks line rules true) = line := by
    unfold applyChunks
    by_cases hr : rules.isEmpty
    · simp [hr, destyle, chunkText]
    · by_cases hm : (collectMatches line rules).isEmpty
      · simp [hr, hm, destyle, chunkText]
      · rw [if_neg (by simp [hr]), if_neg (by simp [hm]),
          destyle_renderChunks _ 0 (greedy_chainFrom _ 0) (wf_filtered wf), List.drop_zero]
  refine ⟨hd, ?_⟩
  have h2 := length_destyle_le (applyChunks line rules true)
  rw [hd] at h2
  exact h2

/-- Witness for C3 on the spec's scenario line and rule. -/
theorem c3_coverage_witness :
    wfMatches ("ERR: disk full".toList) [wRule [(0, 3)] .red none] ∧
    (destyle (applyChunks ("ERR: disk full".toList) [wRule [(0, 3)] .red none] true) =
        "ERR: disk full".toList ∧
      ("ERR: disk full".toList).length ≤
        (apply_color_rules ("ERR: disk full".toList) [wRule [(0, 3)] .red none] true).length) :=
  ⟨by decide, c3_coverage _ _ (by decide)⟩

/-! ### Claim C4 -/

/-- C4: the accepted matches of a single rendering are pairwise disjoint —
no byte offset lies inside two accepted spans (under the engine contract
that reported spans are well formed). -/
theorem c4_nonoverlap (line : Line) (rules : List (Rule Matcher)) (wf : wfMatches line rules) :
    (filteredMatches line rules).Pairwise
      (fun a b => ∀ k, ¬(a.1 ≤ k ∧ k < a.2.1 ∧ b.1 ≤ k ∧ k < b.2.1)) := by
  have hp := chainFrom_pairwise
    (greedy_chainFrom (sortMatches (collectMatches line rules)) 0) (wf_filtered wf)
  exact hp.imp (fun h k => by omega)

/-- Witness for C4 on three overlapping concrete rules. -/
theorem c4_nonoverlap_witness :
    wfMatches ("abcdefghij".toList)
      [wRule [(0, 4)] .red none, wRule [(2, 6)] .blue none, wRule [(5, 9)] .green none] ∧
    (filteredMatches ("abcdefghij".toList)
      [wRule [(0, 4)] .red none, wRule [(2, 6)] .blue none, wRule [(5, 9)] .green none]).Pairwise
      (fun a b => ∀ k, ¬(a.1 ≤ k ∧ k < a.2.1 ∧ b.1 ≤ k ∧ k < b.2.1)) :=
  ⟨by decide, c4_nonoverlap _ _ (by decide)⟩

/-! ### Claim C5 -/

/-- C5: passthrough identity — with no rules and styling on, or with any
rules and styling off, the output is byte-identical to the input line. -/
theorem c5_passthrough (line : Line) :
    apply_color_rules line [] true = line ∧
    ∀ (rules : List (Rule Matcher)), apply_color_rules line rules false = line := by
  constructor
  · show render (applyChunks line [] true) = line
    rw [show applyChunks line [] true = [Chunk.plain line] from rfl]
    simp [render, renderChunk]
  · intro rules
    show render (applyChunks line rules false) = line
    rw [show applyChunks line rules false = [Chunk.plain line] from rfl]
    simp [render, renderChunk]

/-! ### Claims C1 and C2 -/

/-- An element of a list has a first occurrence: the list splits around a
position of `a` with no `a` before it. -/
theorem mem_first_decomp {α : Type} {a : α} :
    ∀ {l : List α}, a ∈ l → ∃ l1 l2, l = l1 ++ a :: l2 ∧ a ∉ l1 := by
  intro l
  induction l with
  | nil => intro h; simp at h
  | cons b bs ih =>
    intro h
    by_cases hab : a = b
    · subst hab
      exact ⟨[], bs, rfl, List.not_mem_nil a⟩
    · rcases List.mem_cons.mp h with h' | h'
      · exact absurd h' hab
      · obtain ⟨l1, l2, rfl, hnotin⟩ := ih h'
        refine ⟨b :: l1, l2, rfl, ?_⟩
        intro hc
        rcases List.mem_cons.mp hc with h'' | h''
        · exact hab h''
        · exact hnotin h''

/-- C1 (amended): when two collected matches of nonzero length have the
same start and the same length, the one from the later-declared rule is
never accepted, and whenever the earlier rule's match is accepted its style
is the one applied to that span.  (The `Nodup` hypothesis reflects the
engine contract: `captures_iter` never reports the same span twice for one
rule.) -/
theorem c1_tie_earlier_rule (line : Line) (rules : List (Rule Matcher))
    {s e i j : Nat} (hij : i < j) (hse : s < e)
    (hx : (s, e, i) ∈ collectMatches line rules)
    (hy : (s, e, j) ∈ collectMatches line rules)
    (wf : wfMatches line rules)
    (hnd : (collectMatches line rules).Nodup) :
    (s, e, j) ∉ filteredMatches line rules ∧
    ((s, e, i) ∈ filteredMatches line rules →
      Chunk.styled (sliceL line s e) (getRule rules i).fg_color (getRule rules i).bg_color
        ∈ applyChunks line rules true) := by
  have hxy : ((s, e, i) : RMatch) ≠ (s, e, j) := by
    simp only [ne_eq, Prod.mk.injEq]
    omega
  constructor
  · have hpair : List.Sublist [((s, e, i) : RMatch), (s, e, j)] (collectMatches line rules) :=
      pair_sublist_collectAux hx hy hij
    have hle : matchLE (s, e, i) (s, e, j) = true := by simp [matchLE]
    have hS : List.Sublist [((s, e, i) : RMatch), (s, e, j)]
        (sortMatches (collectMatches line rules)) := sortMatches_pair hle hpair
    have hndS : (sortMatches (collectMatches line rules)).Nodup :=
      ((sortMatches_perm _).nodup_iff).mpr hnd
    refine greedy_blocked _ (wf_sorted wf) ?_ 0
    intro l1 l2 hdecomp
    have hy2 : (s, e, j) ∉ l2 := by
      have hnd' := hndS
      rw [hdecomp] at hnd'
      exact (List.nodup_cons.mp hnd'.of_append_right).1
    have hx1 : ((s, e, i) : RMatch) ∈ l1 :=
      mem_left_of_pair_sublist (by rw [← hdecomp]; exact hS) hxy hy2
    exact ⟨(s, e, i), hx1, by simpa using hse, by simp⟩
  · intro hmem
    have hrne : rules.isEmpty = false := by
      cases rules with
      | nil => simp [collectMatches, collectAux] at hx
      | cons a as => rfl
    have hmne : (collectMatches line rules).isEmpty = false := by
      cases hcm : collectMatches line rules with
      | nil => rw [hcm] at hx; simp at hx
      | cons a as => rfl
    unfold applyChunks
    rw [if_neg (by simp [hrne]), if_neg (by simp [hmne])]
    exact styled_mem_renderChunks hmem

/-- Counterexample to C1 as stated: two zero-length matches with equal
start and equal length, from rules 0 and 1; the later rule's match is also
accepted, and the later rule's style is also applied. -/
theorem c1_cex :
    (1, 1, 0) ∈ collectMatches ("ab".toList) [wRule [(1, 1)] .red none, wRule [(1, 1)] .blue none] ∧
    (1, 1, 1) ∈ collectMatches ("ab".toList) [wRule [(1, 1)] .red none, wRule [(1, 1)] .blue none] ∧
    (1, 1, 1) ∈ filteredMatches ("ab".toList) [wRule [(1, 1)] .red none, wRule [(1, 1)] .blue none] ∧
    Chunk.styled [] .blue none
      ∈ applyChunks ("ab".toList) [wRule [(1, 1)] .red none, wRule [(1, 1)] .blue none] true := by
  have hs : sortMatches (collectMatches ("ab".toList)
        [wRule [(1, 1)] .red none, wRule [(1, 1)] .blue none]) =
      collectMatches ("ab".toList) [wRule [(1, 1)] .red none, wRule [(1, 1)] .blue none] :=
    List.mergeSort_of_sorted (by decide)
  refine ⟨by decide, by decide, ?_, ?_⟩
  · show (1, 1, 1) ∈ greedy (sortMatches _) 0
    rw [hs]
    decide
  · show Chunk.styled [] .blue none ∈ renderChunks _ _ (greedy (sortMatches _) 0) 0
    rw [hs]
    decide

/-- Witness for C1 (amended) at a concrete tie of two nonzero-length
matches. -/
theorem c1_tie_earlier_rule_witness :
    ((0 : Nat) < 1 ∧ (2 : Nat) < 5 ∧
      (2, 5, 0) ∈ collectMatches ("abcdefgh".toList)
        [wRule [(2, 5)] .red none, wRule [(2, 5)] .blue none] ∧
      (2, 5, 1) ∈ collectMatches ("abcdefgh".toList)
        [wRule [(2, 5)] .red none, wRule [(2, 5)] .blue none] ∧
      wfMatches ("abcdefgh".toList) [wRule [(2, 5)] .red none, wRule [(2, 5)] .blue none] ∧
      (collectMatches ("abcdefgh".toList)
        [wRule [(2, 5)] .red none, wRule [(2, 5)] .blue none]).Nodup) ∧
    ((2, 5, 1) ∉ filteredMatches ("abcdefgh".toList)
        [wRule [(2, 5)] .red none, wRule [(2, 5)] .blue none] ∧
      ((2, 5, 0) ∈ filteredMatches ("abcdefgh".toList)
          [wRule [(2, 5)] .red none, wRule [(2, 5)] .blue none] →
        Chunk.styled (sliceL ("abcdefgh".toList) 2 5)
            (getRule [wRule [(2, 5)] .red none, wRule [(2, 5)] .blue none] 0).fg_color
            (getRule [wRule [(2, 5)] .red none, wRule [(2, 5)] .blue none] 0).bg_color
          ∈ applyChunks ("abcdefgh".toList)
              [wRule [(2, 5)] .red none, wRule [(2, 5)] .blue none] true)) :=
  ⟨⟨by decide, by decide, by decide, by decide, by decide, by decide⟩,
    c1_tie_earlier_rule _ _ (by decide) (by decide) (by decide) (by decide) (by decide) (by decide)⟩

/-- C2 (amended): overlap resolution stable-sorts the collected matches by
ascending start, ties by descending length (the sorted list is a sorted
permutation of the collection), then scans greedily.  When two collected
matches share a start offset, the shorter is always discarded entirely, and
the longer is accepted — hence rendered — whenever no other collected match
overlaps its start offset. -/
theorem c2_longer_preferred (line : Line) (rules : List (Rule Matcher))
    {s e1 e2 i j : Nat} (hlen : e1 < e2)
    (hx : (s, e2, j) ∈ collectMatches line rules)
    (hy : (s, e1, i) ∈ collectMatches line rules)
    (wf : wfMatches line rules) :
    List.Perm (sortMatches (collectMatches line rules)) (collectMatches line rules) ∧
    (sortMatches (collectMatches line rules)).Pairwise (fun a b => matchLE a b = true) ∧
    (s, e1, i) ∉ filteredMatches line rules ∧
    ((∀ z ∈ collectMatches line rules,
        z ≠ (s, e1, i) → z ≠ (s, e2, j) → ¬(z.1 ≤ s ∧ s < z.2.1)) →
      (s, e2, j) ∈ filteredMatches line rules) := by
  have hse1 : s ≤ e1 := wf (s, e1, i) hy
  have hse2 : s < e2 := by omega
  have hyx : matchLE (s, e1, i) (s, e2, j) = false := by
    simp only [matchLE, Bool.or_eq_false_iff, Bool.and_eq_false_iff,
      decide_eq_false_iff_not]
    omega
  have hxS : ((s, e2, j) : RMatch) ∈ sortMatches (collectMatches line rules) :=
    (sortMatches_perm _).mem_iff.mpr hx
  refine ⟨sortMatches_perm _, sortMatches_sorted _, ?_, ?_⟩
  · refine greedy_blocked _ (wf_sorted wf) ?_ 0
    intro l1 l2 hdecomp
    have hxIn : ((s, e2, j) : RMatch) ∈ l1 ++ (s, e1, i) :: l2 := by
      rw [← hdecomp]
      exact hxS
    rcases List.mem_append.mp hxIn with h1 | h1
    · exact ⟨(s, e2, j), h1, by simpa using hse2, by simp⟩
    · rcases List.mem_cons.mp h1 with heq | h2
      · rw [Prod.mk.injEq, Prod.mk.injEq] at heq
        omega
      · exfalso
        have hsort := sortMatches_sorted (collectMatches line rules)
        rw [hdecomp] at hsort
        have hrel := List.rel_of_pairwise_cons ((List.pairwise_append.mp hsort).2.1) h2
        rw [hyx] at hrel
        exact Bool.false_ne_true hrel
  · intro hcov
    obtain ⟨l1, l2, hdecomp, hnotin⟩ := mem_first_decomp hxS
    have haccept : ((s, e2, j) : RMatch) ∈ greedy (l1 ++ (s, e2, j) :: l2) 0 := by
      refine greedy_accept l1 _ l2 0 ?_ (Nat.zero_le _)
      intro z hz
      have hrel : matchLE z (s, e2, j) = true := by
        have hsort := sortMatches_sorted (collectMatches line rules)
        rw [hdecomp] at hsort
        exact (List.pairwise_append.mp hsort).2.2 z hz _ (List.mem_cons_self _ _)
      have hz1 : z.1 ≤ s := by
        simp only [matchLE, Bool.or_eq_true, Bool.and_eq_true, decide_eq_true_eq] at hrel
        omega
      have hzC : z ∈ collectMatches line rules := by
        refine (sortMatches_perm _).mem_iff.mp ?_
        rw [hdecomp]
        exact List.mem_append_left _ hz
      have hzy : z ≠ (s, e1, i) := by
        intro h
        subst h
        rw [hyx] at hrel
        exact Bool.false_ne_true hrel
      have hzx : z ≠ (s, e2, j) := by
        intro h
        rw [h] at hz
        exact hnotin hz
      have := hcov z hzC hzy hzx
      omega
    show ((s, e2, j) : RMatch) ∈ greedy (sortMatches (collectMatches line rules)) 0
    rw [hdecomp]
    exact haccept

/-- Counterexample to C2 as stated: matches `[2,6)` and `[2,4)` share start
offset 2, but the longer one is NOT rendered — both are discarded, because
the accepted match `[0,10)` of an earlier rule covers them. -/
theorem c2_cex :
    (2, 6, 1) ∈ collectMatches ("abcdefghij".toList)
      [wRule [(0, 10)] .red none, wRule [(2, 6)] .blue none, wRule [(2, 4)] .green none] ∧
    (2, 4, 2) ∈ collectMatches ("abcdefghij".toList)
      [wRule [(0, 10)] .red none, wRule [(2, 6)] .blue none, wRule [(2, 4)] .green none] ∧
    (2, 6, 1) ∉ filteredMatches ("abcdefghij".toList)
      [wRule [(0, 10)] .red none, wRule [(2, 6)] .blue none, wRule [(2, 4)] .green none] ∧
    filteredMatches ("abcdefghij".toList)
      [wRule [(0, 10)] .red none, wRule [(2, 6)] .blue none, wRule [(2, 4)] .green none] =
      [(0, 10, 0)] := by
  have hs : sortMatches (collectMatches ("abcdefghij".toList)
        [wRule [(0, 10)] .red none, wRule [(2, 6)] .blue none, wRule [(2, 4)] .green none]) =
      collectMatches ("abcdefghij".toList)
        [wRule [(0, 10)] .red none, wRule [(2, 6)] .blue none, wRule [(2, 4)] .green none] :=
    List.mergeSort_of_sorted (by decide)
  refine ⟨by decide, by decide, ?_, ?_⟩
  · show (2, 6, 1) ∉ greedy (sortMatches _) 0
    rw [hs]
    decide
  · show greedy (sortMatches _) 0 = _
    rw [hs]
    decide

/-- Witness for C2 (amended) at the spec's scenario: spans `[0,3)` and
`[0,5)` at the same offset. -/
theorem c2_longer_preferred_witness :
    ((3 : Nat) < 5 ∧
      (0, 5, 0) ∈ collectMatches ("abcdefgh".toList)
        [wRule [(0, 5)] .blue none, wRule [(0, 3)] .red none] ∧
      (0, 3, 1) ∈ collectMatches ("abcdefgh".toList)
        [wRule [(0, 5)] .blue none, wRule [(0, 3)] .red none] ∧
      wfMatches ("abcdefgh".toList) [wRule [(0, 5)] .blue none, wRule [(0, 3)] .red none]) ∧
    (List.Perm
        (sortMatches (collectMatches ("abcdefgh".toList)
          [wRule [(0, 5)] .blue none, wRule [(0, 3)] .red none]))
        (collectMatches ("abcdefgh".toList)
          [wRule [(0, 5)] .blue none, wRule [(0, 3)] .red none]) ∧
      (sortMatches (collectMatches ("abcdefgh".toList)
          [wRule [(0, 5)] .blue none, wRule [(0, 3)] .red none])).Pairwise
        (fun a b => matchLE a b = true) ∧
      (0, 3, 1) ∉ filteredMatches ("abcdefgh".toList)
        [wRule [(0, 5)] .blue none, wRule [(0, 3)] .red none] ∧
      ((∀ z ∈ collectMatches ("abcdefgh".toList)
            [wRule [(0, 5)] .blue none, wRule [(0, 3)] .red none],
          z ≠ (0, 3, 1) → z ≠ (0, 5, 0) → ¬(z.1 ≤ 0 ∧ 0 < z.2.1)) →
        (0, 5, 0) ∈ filteredMatches ("abcdefgh".toList)
          [wRule [(0, 5)] .blue none, wRule [(0, 3)] .red none])) :=
  ⟨⟨by decide, by decide, by decide, by decide⟩,
    c2_longer_preferred _ _ (by decide) (by decide) (by decide) (by decide)⟩

/-! ### Claims C6, C7, C8, C9, C10 -/

/-- C6 (amended): a pattern line encountered while the parser is in `Idle`
(not awaiting a pattern) is silently ignored — the state is unchanged, so
no diagnostic is emitted and no rule is added (the code's "regex without
preceding color" branch is unreachable) — and a configuration consisting
only of non-declaration lines produces zero rules and zero diagnostics. -/
theorem c6_idle_pattern_ignored {R : Type} (compile : Str → Option R) :
    (∀ (st : LoadState R) (n : Nat) (l : Str),
      st.awaiting_regex = false →
      isSkipped (trimChars l) = false →
      stripBrackets (trimChars l) = none →
      loadStep compile st n l = st) ∧
    (∀ (lines : List Str),
      (∀ l ∈ lines, stripBrackets (trimChars l) = none) →
      (loadLines compile lines).rules = [] ∧ (loadLines compile lines).diags = []) := by
  have hstep : ∀ (st : LoadState R) (n : Nat) (l : Str),
      st.awaiting_regex = false →
      isSkipped (trimChars l) = false →
      stripBrackets (trimChars l) = none →
      loadStep compile st n l = st := by
    intro st n l ha hsk hsb
    simp [loadStep, ha, hsk, hsb]
  refine ⟨hstep, ?_⟩
  have aux : ∀ (ls : List Str) (st : LoadState R) (n : Nat),
      st.awaiting_regex = false →
      (∀ l ∈ ls, stripBrackets (trimChars l) = none) →
      runLoad compile st n ls = st := by
    intro ls
    induction ls with
    | nil => intro st n _ _; rfl
    | cons l ls ih =>
      intro st n ha hall
      rw [runLoad]
      have hone : loadStep compile st n l = st := by
        by_cases hsk : isSkipped (trimChars l)
        · simp [loadStep, hsk]
        · exact hstep st n l ha (by simpa using hsk) (hall l (List.mem_cons_self l ls))
      rw [hone]
      exact ih st (n + 1) ha (fun x hx => hall x (List.mem_cons_of_mem l hx))
  intro lines hall
  rw [loadLines, aux lines initState 0 rfl hall]
  exact ⟨rfl, rfl⟩

/-- Counterexample to C6 as stated: a pattern line before any declaration
is ignored and yields zero rules, but NO diagnostic is emitted — the
diagnostics list stays empty. -/
theorem c6_cex :
    (loadLines (fun s => (some s : Option Str)) ["ERR".toList]).rules = [] ∧
    (loadLines (fun s => (some s : Option Str)) ["ERR".toList]).diags = [] := by
  decide

/-- Witness for C6 (amended) on concrete inputs. -/
theorem c6_idle_pattern_ignored_witness :
    loadStep (fun s => (some s : Option Str)) initState 0 ("ERR".toList) = initState ∧
    ((loadLines (fun s => (some s : Option Str)) ["foo".toList, "bar baz".toList]).rules = [] ∧
      (loadLines (fun s => (some s : Option Str)) ["foo".toList, "bar baz".toList]).diags = []) :=
  ⟨(c6_idle_pattern_ignored _).1 initState 0 _ rfl (by decide) (by decide),
    (c6_idle_pattern_ignored _).2 _ (by decide)⟩

/-- C7 (amended): blank and comment lines never change the parser state —
they ARE skipped, also between a style declaration and its pattern line —
and the line completing a valid declaration is the next non-blank,
non-comment line, whose trimmed text is consumed verbatim as the rule's
regular-expression source. -/
theorem c7_next_content_line {R : Type} (compile : Str → Option R) :
    (∀ (st : LoadState R) (n : Nat) (l : Str),
      isSkipped (trimChars l) = true → loadStep compile st n l = st) ∧
    (∀ (st : LoadState R) (n : Nat) (l : Str) (fg : Color) (re : R),
      st.awaiting_regex = true → st.last_fg = some fg →
      isSkipped (trimChars l) = false →
      compile (trimChars l) = some re →
      loadStep compile st n l =
        { st with rules := st.rules ++ [⟨re, fg, st.last_bg⟩], awaiting_regex := false }) := by
  constructor
  · intro st n l hsk
    simp [loadStep, hsk]
  · intro st n l fg re ha hfg hc hcomp
    simp [loadStep, ha, hfg, hc, hcomp]

/-- Counterexample to C7 as stated: a blank line and a comment line stand
between the declaration and `ERR`, yet the produced rule's pattern source
is `ERR` — the blank/comment lines were skipped, not consumed. -/
theorem c7_cex :
    (loadLines (fun s => (some s : Option Str))
        ["[fg:red]".toList, "".toList, "# note".toList, "ERR".toList]).rules =
      [⟨"ERR".toList, .red, none⟩] ∧
    (loadLines (fun s => (some s : Option Str))
        ["[fg:red]".toList, "".toList, "# note".toList, "ERR".toList]).diags = [] := by
  decide

/-- Witness for C7 (amended) on concrete inputs. -/
theorem c7_next_content_line_witness :
    loadStep (fun s => (some s : Option Str))
        (⟨some .red, none, true, [], []⟩ : LoadState Str) 5 ("  ".toList) =
      ⟨some .red, none, true, [], []⟩ ∧
    loadStep (fun s => (some s : Option Str))
        (⟨some .red, none, true, [], []⟩ : LoadState Str) 6 (" ERR ".toList) =
      ⟨some .red, none, false, [⟨"ERR".toList, .red, none⟩], []⟩ :=
  ⟨(c7_next_content_line _).1 _ 5 _ (by decide),
    (c7_next_content_line (fun s => (some s : Option Str))).2
      (⟨some .red, none, true, [], []⟩ : LoadState Str) 6 (" ERR ".toList) .red
      ("ERR".toList) rfl rfl (by decide) (by decide)⟩

/-- C8: a pattern line that fails to compile under a valid declaration
yields an "invalid regex" diagnostic naming its 1-based line number and no
rule (the parser returns to `Idle`), and a subsequent valid
declaration-plus-pattern pair in the same input still produces its rule,
appended to the rule set. -/
theorem c8_invalid_regex_recovery {R : Type} (compile : Str → Option R) :
    (∀ (st : LoadState R) (n : Nat) (l : Str) (fg : Color),
      st.awaiting_regex = true → st.last_fg = some fg →
      isSkipped (trimChars l) = false →
      compile (trimChars l) = none →
      loadStep compile st n l =
        { st with diags := st.diags ++ [.invalidRegex (n + 1) (trimChars l)],
                  awaiting_regex := false }) ∧
    (∀ (d1 p1 d2 p2 c1v c2v : Str) (fg1 fg2 : Color) (bg1 bg2 : Option Color) (re2 : R),
      isSkipped (trimChars d1) = false → stripBrackets (trimChars d1) = some c1v →
      parse_colors c1v = (some fg1, bg1) →
      isSkipped (trimChars p1) = false → compile (trimChars p1) = none →
      isSkipped (trimChars d2) = false → stripBrackets (trimChars d2) = some c2v →
      parse_colors c2v = (some fg2, bg2) →
      isSkipped (trimChars p2) = false → compile (trimChars p2) = some re2 →
      (loadLines compile [d1, p1, d2, p2]).rules = [⟨re2, fg2, bg2⟩] ∧
      (loadLines compile [d1, p1, d2, p2]).diags = [.invalidRegex 2 (trimChars p1)]) := by
  constructor
  · intro st n l fg ha hfg hsk hcomp
    simp [loadStep, ha, hfg, hsk, hcomp]
  · intro d1 p1 d2 p2 c1v c2v fg1 fg2 bg1 bg2 re2 h1 h2 h3 h4 h5 h6 h7 h8 h9 h10
    simp [loadLines, runLoad, loadStep, initState, h1, h2, h3, h4, h5, h6, h7, h8, h9, h10]

/-- Witness for C8 on a concrete configuration with one bad and one good
pattern. -/
theorem c8_invalid_regex_recovery_witness :
    (loadLines (fun s => if s = "BAD".toList then none else (some s : Option Str))
        ["[fg:red]".toList, "BAD".toList, "[fg:green, bg:blue]".toList, "OK".toList]).rules =
      [⟨"OK".toList, .green, some .blue⟩] ∧
    (loadLines (fun s => if s = "BAD".toList then none else (some s : Option Str))
        ["[fg:red]".toList, "BAD".toList, "[fg:green, bg:blue]".toList, "OK".toList]).diags =
      [.invalidRegex 2 ("BAD".toList)] :=
  (c8_invalid_regex_recovery _).2 ("[fg:red]".toList) ("BAD".toList)
    ("[fg:green, bg:blue]".toList) ("OK".toList) ("fg:red".toList)
    ("fg:green, bg:blue".toList) .red .green none (some .blue) ("OK".toList)
    (by decide) (by decide) (by decide) (by decide) (by decide) (by decide) (by decide)
    (by decide) (by decide) (by decide)

/-- C9: an unreadable configuration source yields the empty rule set and no
diagnostics — never a crash — and colorizing with an empty rule set is
byte-identical passthrough. -/
theorem c9_unreadable_config (compile : Str → Option Matcher) :
    load_color_rules compile none = ([], []) ∧
    ∀ (line : Line) (use_color : Bool), apply_color_rules line [] use_color = line := by
  refine ⟨rfl, ?_⟩
  intro line uc
  cases uc
  · show render (applyChunks line [] false) = line
    rw [show applyChunks line [] false = [Chunk.plain line] from rfl]
    simp [render, renderChunk]
  · show render (applyChunks line [] true) = line
    rw [show applyChunks line [] true = [Chunk.plain line] from rfl]
    simp [render, renderChunk]

/-- Appending token lists composes the accumulator threading of
`parseColorsAux` (it is a left fold over the tokens). -/
theorem parseColorsAux_append (l1 l2 : List Str) (acc : Option Color × Option Color) :
    parseColorsAux (l1 ++ l2) acc = parseColorsAux l2 (parseColorsAux l1 acc) := by
  induction l1 generalizing acc with
  | nil => rfl
  | cons p l1 ih =>
    obtain ⟨fg, bg⟩ := acc
    rw [List.cons_append, parseColorsAux, parseColorsAux]
    by_cases h1 : List.isPrefixOf ("fg:".toList) (trimChars p) = true
    · rw [if_pos h1, if_pos h1, ih]
    · rw [if_neg h1, if_neg h1]
      by_cases h2 : List.isPrefixOf ("bg:".toList) (trimChars p) = true
      · rw [if_pos h2, if_pos h2, ih]
      · rw [if_neg h2, if_neg h2, ih]

/-- Tokens without a `fg:` prefix never change the accumulated
foreground. -/
theorem parseColorsAux_fst_stable : ∀ (ls : List Str) (acc : Option Color × Option Color),
    (∀ l ∈ ls, List.isPrefixOf ("fg:".toList) (trimChars l) = false) →
    (parseColorsAux ls acc).1 = acc.1 := by
  intro ls
  induction ls with
  | nil => intro acc _; rfl
  | cons p ps ih =>
    intro acc hall
    obtain ⟨fg, bg⟩ := acc
    have ih' := fun acc' => ih acc' (fun l hl => hall l (List.mem_cons_of_mem p hl))
    rw [parseColorsAux, if_neg (by rw [hall p (List.mem_cons_self p ps)]; decide)]
    split
    · exact ih' _
    · exact ih' _

/-- Tokens without a `bg:` prefix never change the accumulated
background. -/
theorem parseColorsAux_snd_stable : ∀ (ls : List Str) (acc : Option Color × Option Color),
    (∀ l ∈ ls, List.isPrefixOf ("bg:".toList) (trimChars l) = false) →
    (parseColorsAux ls acc).2 = acc.2 := by
  intro ls
  induction ls with
  | nil => intro acc _; rfl
  | cons p ps ih =>
    intro acc hall
    obtain ⟨fg, bg⟩ := acc
    have ih' := fun acc' => ih acc' (fun l hl => hall l (List.mem_cons_of_mem p hl))
    rw [parseColorsAux]
    split
    · exact ih' _
    · rw [if_neg (by rw [hall p (List.mem_cons_self p ps)]; decide)]
      exact ih' _

/-- One `fg:` token overwrites the foreground and keeps the background. -/
theorem parseColorsAux_single_fg (t : Str) (acc : Option Color × Option Color)
    (ht : List.isPrefixOf ("fg:".toList) (trimChars t) = true) :
    parseColorsAux [t] acc = (some (parse_color ((trimChars t).drop 3)), acc.2) := by
  obtain ⟨fg, bg⟩ := acc
  rw [parseColorsAux, if_pos ht]
  rfl

/-- One `bg:` token overwrites the background and keeps the foreground. -/
theorem parseColorsAux_single_bg (t : Str) (acc : Option Color × Option Color)
    (ht1 : List.isPrefixOf ("fg:".toList) (trimChars t) = false)
    (ht2 : List.isPrefixOf ("bg:".toList) (trimChars t) = true) :
    parseColorsAux [t] acc = (acc.1, some (parse_color ((trimChars t).drop 3))) := by
  obtain ⟨fg, bg⟩ := acc
  rw [parseColorsAux, if_neg (by rw [ht1]; decide), if_pos ht2]
  rfl

/-- One token with neither prefix changes nothing. -/
theorem parseColorsAux_single_skip (t : Str) (acc : Option Color × Option Color)
    (ht1 : List.isPrefixOf ("fg:".toList) (trimChars t) = false)
    (ht2 : List.isPrefixOf ("bg:".toList) (trimChars t) = false) :
    parseColorsAux [t] acc = acc := by
  obtain ⟨fg, bg⟩ := acc
  rw [parseColorsAux, if_neg (by rw [ht1]; decide), if_neg (by rw [ht2]; decide)]
  rfl

/-- C10: parsing a style-declaration body is total and diagnostic-free:
wherever a `fg:` (resp. `bg:`) token stands, the LAST such token of the
body determines the foreground (resp. background); a token starting with
neither prefix is ignored, leaving the parse of the remaining tokens
unchanged; and any unrecognized color value maps to white (stated for
ASCII values, on which the model's `Char.toLower` agrees with Rust
`str::to_lowercase`). -/
theorem c10_parse_colors_total :
    (∀ (pre suf : List Str) (acc : Option Color × Option Color) (t : Str),
      List.isPrefixOf ("fg:".toList) (trimChars t) = true →
      (∀ l ∈ suf, List.isPrefixOf ("fg:".toList) (trimChars l) = false) →
      (parseColorsAux (pre ++ t :: suf) acc).1 =
        some (parse_color ((trimChars t).drop 3))) ∧
    (∀ (pre suf : List Str) (acc : Option Color × Option Color) (t : Str),
      List.isPrefixOf ("fg:".toList) (trimChars t) = false →
      List.isPrefixOf ("bg:".toList) (trimChars t) = true →
      (∀ l ∈ suf, List.isPrefixOf ("bg:".toList) (trimChars l) = false) →
      (parseColorsAux (pre ++ t :: suf) acc).2 =
        some (parse_color ((trimChars t).drop 3))) ∧
    (∀ (pre suf : List Str) (acc : Option Color × Option Color) (t : Str),
      List.isPrefixOf ("fg:".toList) (trimChars t) = false →
      List.isPrefixOf ("bg:".toList) (trimChars t) = false →
      parseColorsAux (pre ++ t :: suf) acc = parseColorsAux (pre ++ suf) acc) ∧
    (∀ (s : Str), (∀ c ∈ s, c.toNat < 128) →
      s.map Char.toLower ∉ validColorNames → parse_color s = .white) := by
  refine ⟨?_, ?_, ?_, ?_⟩
  · intro pre suf acc t ht hsuf
    have hsplit : pre ++ t :: suf = (pre ++ [t]) ++ suf := by simp
    rw [hsplit, parseColorsAux_append, parseColorsAux_fst_stable suf _ hsuf,
      parseColorsAux_append, parseColorsAux_single_fg t _ ht]
  · intro pre suf acc t ht1 ht2 hsuf
    have hsplit : pre ++ t :: suf = (pre ++ [t]) ++ suf := by simp
    rw [hsplit, parseColorsAux_append, parseColorsAux_snd_stable suf _ hsuf,
      parseColorsAux_append, parseColorsAux_single_bg t _ ht1 ht2]
  · intro pre suf acc t ht1 ht2
    have hsplit : pre ++ t :: suf = (pre ++ [t]) ++ suf := by simp
    rw [hsplit, parseColorsAux_append, parseColorsAux_append,
      parseColorsAux_single_skip t _ ht1 ht2, ← parseColorsAux_append]
  · intro s _ hs
    have h : ∀ x, x ∈ validColorNames → ¬(s.map Char.toLower = x) := by
      intro x hx heq
      rw [← heq] at hx
      exact hs hx
    simp only [parse_color]
    rw [if_neg (h ("red".toList) (by decide))]
    rw [if_neg (h ("blue".toList) (by decide))]
    rw [if_neg (h ("green".toList) (by decide))]
    rw [if_neg (h ("yellow".toList) (by decide))]
    rw [if_neg (h ("magenta".toList) (by decide))]
    rw [if_neg (h ("cyan".toList) (by decide))]
    rw [if_neg (h ("white".toList) (by decide))]
    rw [if_neg (h ("black".toList) (by decide))]
    rw [if_neg (h ("brightred".toList) (by decide))]
    rw [if_neg (h ("brightblue".toList) (by decide))]
    rw [if_neg (h ("brightgreen".toList) (by decide))]
    rw [if_neg (h ("brightyellow".toList) (by decide))]
    rw [if_neg (h ("brightmagenta".toList) (by decide))]
    rw [if_neg (h ("brightcyan".toList) (by decide))]
    rw [if_neg (h ("brightwhite".toList) (by decide))]

/-- Witness for C10: a body shaped `fg:red, fg:blue, bg:green` with the
decisive token in the middle, a background overridden before a later
`fg:` token, an ignored token in the middle, and an unrecognized ASCII
color name. -/
theorem c10_parse_colors_total_witness :
    (List.isPrefixOf ("fg:".toList) (trimChars ("fg:blue".toList)) = true ∧
      (∀ l ∈ [" bg:green".toList],
        List.isPrefixOf ("fg:".toList) (trimChars l) = false) ∧
      (parseColorsAux (["fg:red".toList] ++ "fg:blue".toList :: [" bg:green".toList])
          (none, none)).1 =
        some (parse_color ((trimChars ("fg:blue".toList)).drop 3))) ∧
    (List.isPrefixOf ("fg:".toList) (trimChars ("bg:green".toList)) = false ∧
      List.isPrefixOf ("bg:".toList) (trimChars ("bg:green".toList)) = true ∧
      (∀ l ∈ ["fg:blue".toList],
        List.isPrefixOf ("bg:".toList) (trimChars l) = false) ∧
      (parseColorsAux (["bg:red".toList] ++ "bg:green".toList :: ["fg:blue".toList])
          (none, none)).2 =
        some (parse_color ((trimChars ("bg:green".toList)).drop 3))) ∧
    (List.isPrefixOf ("fg:".toList) (trimChars ("bold".toList)) = false ∧
      List.isPrefixOf ("bg:".toList) (trimChars ("bold".toList)) = false ∧
      parseColorsAux (["fg:red".toList] ++ "bold".toList :: ["bg:green".toList]) (none, none) =
        parseColorsAux (["fg:red".toList] ++ ["bg:green".toList]) (none, none)) ∧
    ((∀ c ∈ "chartreuse".toList, c.toNat < 128) ∧
      ("chartreuse".toList).map Char.toLower ∉ validColorNames ∧
      parse_color ("chartreuse".toList) = .white) :=
  ⟨⟨by decide, by decide, c10_parse_colors_total.1 _ _ _ _ (by decide) (by decide)⟩,
    ⟨by decide, by decide, by decide,
      c10_parse_colors_total.2.1 _ _ _ _ (by decide) (by decide) (by decide)⟩,
    ⟨by decide, by decide,
      c10_parse_colors_total.2.2.1 _ _ _ _ (by decide) (by decide)⟩,
    ⟨by decide, by decide, c10_parse_colors_total.2.2.2 _ (by decide) (by decide)⟩⟩

end Nscwrs
